import Mathlib

/-!
# Verification of `convertlogs_python2.py` (znclogs 1.4 → 1.6 converter)

A shallow embedding of the log-conversion script.  Filenames and log lines
are modelled as `List Char` (the script manipulates byte strings; all
operations used — `lower`, slicing, `endswith`, regex matching over the
three fixed patterns — are embedded character by character).  Filesystem
primitives (listing, copy, move, stat, makedirs) are the script's
"filesystem adapter" and are modelled abstractly: file contents/metadata
as explicit data, `os.makedirs` outcomes as an oracle parameter.
-/

namespace ZL

/-- Python `str.lower()` (ASCII case folding, as in Python 2 byte strings). -/
def lowerStr (s : List Char) : List Char := s.map Char.toLower

/-- The script's `OUTDIR = "./output/"`. -/
def OUTDIR : List Char := "./output/".toList

/-- Python 2 byte-string `<=`: lexicographic comparison by character code.
`sorted` compares the timestamp keys with this order. -/
def strLe : List Char → List Char → Bool
  | [], _ => true
  | _ :: _, [] => false
  | a :: as, b :: bs =>
    if a.toNat = b.toNat then strLe as bs else decide (a.toNat < b.toNat)

/-! ## The per-line timestamp regex `lineRe = ^\[(.*?)].*$`

`re.match` on a line: the line must begin with `[`; the lazy group `(.*?)`
(`.` matches anything but a newline) stops at the first `]` after which the
rest of the line matches `.*$` (`$` also matches just before one final
trailing newline).  On failure the engine grows the lazy group past that
`]` and tries the next one. -/

/-- Does `r` match `.*$` : no newline except possibly one final trailing one. -/
def restOk (r : List Char) : Bool :=
  r.all (fun c => c != '\n') ||
    (r.getLast? == some '\n' && r.dropLast.all (fun c => c != '\n'))

/-- Backtracking scan for the group `(.*?)]` with continuation `.*$`:
`acc` holds the group candidate so far (in reverse). -/
def lineScan : List Char → List Char → Option (List Char)
  | _, [] => none
  | acc, c :: rest =>
    if c = ']' && restOk rest then some acc.reverse
    else if c = '\n' then none
    else lineScan (c :: acc) rest

/-- `lineRe.match(line)`: `some g` is the captured group 1 (the timestamp
between the brackets), `none` when the line does not look like a log line. -/
def lineMatch : List Char → Option (List Char)
  | [] => none
  | c :: rest => if c = '[' then lineScan [] rest else none

/-- `ts = m.group(1).replace(':','')` — the sort key. -/
def stripColons (s : List Char) : List Char := s.filter (fun c => c != ':')

/-- The warning printed by `sortLines` for a line that fails `lineRe`. -/
def warnLineMsg (line : List Char) : List Char :=
  "WARNING: Line ".toList ++ line ++
    " doesn't look like a log line and will be removed!".toList

/-- The loop body of `sortLines`: walk the lines, emitting a warning for
each unparseable line and a `(timestamp-key, line)` pair for each parseable
one, in input order. -/
def collectLines : List (List Char) → List (List Char) × List (List Char × List Char)
  | [] => ([], [])
  | line :: rest =>
    let p := collectLines rest
    match lineMatch line with
    | none => (warnLineMsg line :: p.1, p.2)
    | some g => (p.1, (stripColons g, line) :: p.2)

/-- The comparison `sorted(out, key=lambda x: x[0])` sorts with. -/
def keyLe (a b : List Char × List Char) : Prop := strLe a.1 b.1 = true

instance : DecidableRel keyLe := fun _ _ => instDecidableEqBool _ _

/-- `sortLines(lines)`: returns `(warnings printed, sorted surviving lines)`.
Python's `sorted` is a stable sort; it is modelled by the (stable)
`List.insertionSort` on the `(key, line)` pairs. -/
def sortLines (lines : List (List Char)) : List (List Char) × List (List Char) :=
  let p := collectLines lines
  (p.1, (List.insertionSort keyLe p.2).map (fun x => x.2))

/-- The `(sort key, line)` pair the `sortLines` loop produces for one line
(`none` for a line `lineRe` rejects). -/
def parseLine (line : List Char) : Option (List Char × List Char) :=
  (lineMatch line).map (fun g => (stripColons g, line))

/-- The sort key recomputed from a line (defaulting to `""` on a
non-log line); on every line `sortLines` keeps, this is its sort key. -/
def tsOfD (line : List Char) : List Char :=
  stripColons ((lineMatch line).getD [])

/-! ## `findMixedCaseDupes` -/

/-- The distinct keys of `collections.Counter(nameslc)`, in first-seen
order (Python 2 dicts do not fix an iteration order; the claims under
verification do not depend on the order of the groups, only on their
contents, so first-occurrence order is used as the model's order). -/
def counterKeys : List (List Char) → List (List Char)
  | [] => []
  | x :: xs => x :: (counterKeys xs).filter (fun y => y != x)

/-- Warning printed for a lowercase name occurring more than twice. -/
def warnMoreMsg (k : List Char) : List Char :=
  "Warning: ".toList ++ k ++ " has more than two occurrences. Skipping.".toList

/-- `findMixedCaseDupes(names)`: returns `(warnings, dupes)`.  The source
counts lowercased names, keeps the keys of multiplicity exactly 2 as
`dupenames` (warning on multiplicity > 2), then for each such key collects
the original-case names mapping to it, in input order. -/
def findMixedCaseDupes (names : List (List Char)) :
    List (List Char) × List (List (List Char)) :=
  let nameslc := names.map lowerStr
  let keys := counterKeys nameslc
  let dupenames := keys.filter (fun k => nameslc.count k == 2)
  let warns := (keys.filter (fun k => 2 < nameslc.count k)).map warnMoreMsg
  (warns, dupenames.map (fun k => names.filter (fun v => lowerStr v == k)))

/-! ## The filename grammars

```
globalRe  = ^(?P<user>.+?)_(?P<network>[\w-]+?)_(?P<window>.+)_(?P<date>[0-9]+)\.log$
networkRe = ^(?P<window>.+)_(?P<date>[0-9]+)\.log
userRe    = ^(?P<network>[\w-]+?)_(?P<window>.+)_(?P<date>[0-9]+)\.log
```

`re.match` anchors at the start only; `globalRe` alone is `$`-anchored at
the end.  Backtracking semantics of each fixed pattern are embedded
directly: lazy groups (`+?`) try the shortest candidate first and grow on
failure of the whole continuation; the greedy `(?P<window>.+)` tries the
longest candidate first.  In Python 2, `.` is any character but `\n` and
`\w` is `[a-zA-Z0-9_]`. -/

/-- `[\w-]` of Python 2 (no re.UNICODE): ASCII letters, digits, `_`, `-`. -/
def wordDash (c : Char) : Bool := c.isAlphanum || c = '_' || c = '-'

/-- One candidate split for the tail `(?P<window>.+)_(?P<date>[0-9]+)\.log`
(with a final `$` when `anchored`): `window = s.take i` (no newline, length
exactly `i`), then `_`, then the maximal digit run as `date` (the greedy
`[0-9]+` cannot give back digits, since `\.` never matches a digit), then
`.log` — as the whole rest when anchored, as a prefix otherwise. -/
def tailSplitAt (anchored : Bool) (s : List Char) (i : Nat) :
    Option (List Char × List Char) :=
  let w := s.take i
  if w.length = i && w.all (fun c => c != '\n') then
    match s.drop i with
    | '_' :: t =>
      let ds := t.takeWhile Char.isDigit
      if ds.isEmpty then none
      else
        let r := t.drop ds.length
        if anchored then (if r = ".log".toList then some (w, ds) else none)
        else (if ".log".toList.isPrefixOf r then some (w, ds) else none)
    | _ => none
  else none

/-- Greedy search for the window: longest split first. -/
def tailSearch (anchored : Bool) (s : List Char) : Nat → Option (List Char × List Char)
  | 0 => none
  | i + 1 =>
    match tailSplitAt anchored s (i + 1) with
    | some r => some r
    | none => tailSearch anchored s i

/-- Full match of `(?P<window>.+)_(?P<date>[0-9]+)\.log` (+ `$` if anchored)
against `s`, returning `(window, date)`. -/
def tailMatch (anchored : Bool) (s : List Char) : Option (List Char × List Char) :=
  tailSearch anchored s s.length

/-- `networkRe.match`: `(window, date)` captures, or `none`. -/
def netMatch (s : List Char) : Option (List Char × List Char) :=
  tailMatch false s

/-- Lazy search for `(?P<network>[\w-]+?)_` followed by the unanchored tail:
`acc` is the network candidate so far; the shortest candidate that lets the
continuation succeed wins. -/
def userFrom (acc : List Char) : List Char → Option (List Char × List Char × List Char)
  | [] => none
  | c :: rest =>
    if wordDash c then
      match (match rest with
             | '_' :: r2 => (tailMatch false r2).map (fun wd => (acc ++ [c], wd.1, wd.2))
             | _ => none) with
      | some r => some r
      | none => userFrom (acc ++ [c]) rest
    else none

/-- `userRe.match`: `(network, window, date)` captures, or `none`. -/
def userMatch (s : List Char) : Option (List Char × List Char × List Char) :=
  userFrom [] s

/-- Lazy search for `(?P<network>[\w-]+?)_` inside `globalRe`, with the
`$`-anchored tail as continuation; `user` is already fixed. -/
def globalNetFrom (user : List Char) (acc : List Char) :
    List Char → Option (List Char × List Char × List Char × List Char)
  | [] => none
  | c :: rest =>
    if wordDash c then
      match (match rest with
             | '_' :: r2 =>
               (tailMatch true r2).map (fun wd => (user, acc ++ [c], wd.1, wd.2))
             | _ => none) with
      | some r => some r
      | none => globalNetFrom user (acc ++ [c]) rest
    else none

/-- Lazy search for `(?P<user>.+?)_` inside `globalRe` (any non-newline
characters), with the network search as continuation. -/
def globalUserFrom (acc : List Char) :
    List Char → Option (List Char × List Char × List Char × List Char)
  | [] => none
  | c :: rest =>
    if c != '\n' then
      match (match rest with
             | '_' :: r2 => globalNetFrom (acc ++ [c]) [] r2
             | _ => none) with
      | some r => some r
      | none => globalUserFrom (acc ++ [c]) rest
    else none

/-- `globalRe.match`: `(user, network, window, date)` captures, or `none`. -/
def globalMatch (s : List Char) :
    Option (List Char × List Char × List Char × List Char) :=
  globalUserFrom [] s

/-! ## `convertToHierarchy` -/

/-- The named groups `convertToHierarchy` reads off a match object.  All
three patterns define `window` and `date` groups (so the `IndexError`
handlers for those two are dead code and the fields are total); `user`
exists only in `globalRe` and `network` only in `globalRe`/`userRe`
(`m.group` raises `IndexError` for the others, caught and left `''`). -/
structure Groups where
  user : Option (List Char)
  network : Option (List Char)
  window : List Char
  date : List Char
deriving DecidableEq, Repr

/-- Selection of `myRe` by the first letter of the answer: `'N'` picks
`networkRe`, `'U'` picks `userRe`, anything else keeps `globalRe`. -/
def modeMatch (logType : Char) (s : List Char) : Option Groups :=
  if logType = 'N' then
    (netMatch s).map (fun wd => ⟨none, none, wd.1, wd.2⟩)
  else if logType = 'U' then
    (userMatch s).map (fun g => ⟨none, some g.1, g.2.1, g.2.2⟩)
  else
    (globalMatch s).map (fun g => ⟨some g.1, some g.2.1, g.2.2.1, g.2.2.2⟩)

/-- Selection of `myFormat`: `networkDirFormat = "{window}"`,
`userDirFormat = "{network}/{window}"`,
`globalDirFormat = "{user}/{network}/{window}"`. -/
def dirFormat (logType : Char) (user network window : List Char) : List Char :=
  if logType = 'N' then window
  else if logType = 'U' then network ++ ['/'] ++ window
  else user ++ ['/'] ++ network ++ ['/'] ++ window

/-- `ymd = (date[:4], date[4:6], date[6:8]); date = '-'.join(ymd)` —
fixed positional slicing, no length check. -/
def fmtDate (date : List Char) : List Char :=
  date.take 4 ++ ['-'] ++ (date.drop 4).take 2 ++ ['-'] ++ (date.drop 6).take 2

/-- Outcome of the `os.makedirs` adapter call. -/
inductive OSResult
  | ok
  | err (errno : Nat)
deriving DecidableEq, Repr

/-- `errno.EEXIST` on the platforms the script targets. -/
def EEXIST : Nat := 17

/-- The filesystem adapter consulted by `convertToHierarchy`: the outcome
of `os.makedirs(path)` and the answer of `os.path.isdir(path)`. -/
structure OSModel where
  makedirs : List Char → OSResult
  isdir : List Char → Bool

/-- `path = OUTDIR + myFormat.format(user=user, network=network,
window=window)` — the destination directory for a matched filename. -/
def destDir (logType : Char) (g : Groups) : List Char :=
  OUTDIR ++ dirFormat logType (g.user.getD []) (g.network.getD []) g.window

/-- An adapter on which every `makedirs` succeeds. -/
def osOk : OSModel := ⟨fun _ => .ok, fun _ => true⟩

/-- The observable effect of processing one staged file. -/
inductive Event
  | warned (msg : List Char)
  | moved (src dst : List Char)
deriving DecidableEq, Repr

/-- Warning for a filename the active grammar rejects. -/
def warnNoMatchMsg (logfile : List Char) : List Char :=
  "warning: ".toList ++ logfile ++ " did not match! It will be skipped.".toList

/-- The body of the `for logfile in logfiles` loop of `convertToHierarchy`:
match against the active grammar (non-match: warn and leave the file in
place), read the groups (missing `user`/`network` default to `''`),
reformat the date, build the destination directory, `os.makedirs` it
(an `OSError` with `errno == EEXIST` on an existing directory is passed
over, any other one is re-raised), then move the file to
`path + "/" + date + ".log"`. -/
def processLogfile (os : OSModel) (logType : Char) (logfile : List Char) :
    Except Nat Event :=
  match modeMatch logType logfile with
  | none => .ok (.warned (warnNoMatchMsg logfile))
  | some g =>
    let date := fmtDate g.date
    let path := destDir logType g
    let mv : Event := .moved (OUTDIR ++ logfile) (path ++ ['/'] ++ date ++ ".log".toList)
    match os.makedirs path with
    | .ok => .ok mv
    | .err e => if e == EEXIST && os.isdir path then .ok mv else .error e

/-- `convertToHierarchy(logType)` over the staged top-level listing:
processes the files in order; an exception re-raised out of the loop body
propagates and aborts the whole run (remaining files unprocessed). -/
def convertToHierarchy (os : OSModel) (logType : Char) :
    List (List Char) → Except Nat (List Event)
  | [] => .ok []
  | f :: fs =>
    match processLogfile os logType f with
    | .error e => .error e
    | .ok ev =>
      match convertToHierarchy os logType fs with
      | .error e => .error e
      | .ok evs => .ok (ev :: evs)

/-! ## `mergeAndCopyLogs` -/

/-- A source file as the merge stage sees it: its text lines (as read by
`readlines`, terminators included) and its stat metadata (mtime,
permission bits, …), abstracted to an opaque tag — `shutil.copystat` /
`copy2` transfer it wholesale, which is all the claims need. -/
structure FileData where
  lines : List (List Char)
  stat : Nat
deriving DecidableEq, Repr

/-- `mergeAndCopyLogs(logfiles, dupes)` as the ordered list of writes it
performs into the staging directory.  First, for each duplicate pair, the
lines of `dupe[0]` then `dupe[1]` are concatenated, sorted by `sortLines`
and written to `OUTDIR + dupe[0].lower()`, then `shutil.copystat(dupe[1], …)`
stamps that file with the second member's metadata.  Afterwards every
`logfile` not occurring in any pair is copied (`shutil.copy2`: contents
and metadata) to `OUTDIR + name.lower()`. -/
def mergeAndCopyLogs (fs : List Char → FileData) (logfiles : List (List Char))
    (dupes : List (List (List Char))) : List (List Char × FileData) :=
  let merges := dupes.map (fun d =>
    let f1 := d.getD 0 []
    let f2 := d.getD 1 []
    (OUTDIR ++ lowerStr f1,
     { lines := (sortLines ((fs f1).lines ++ (fs f2).lines)).2,
       stat := (fs f2).stat }))
  let dupeslist := dupes.flatten
  let copies := (logfiles.filter (fun n => !(dupeslist.contains n))).map
    (fun n => (OUTDIR ++ lowerStr n, fs n))
  merges ++ copies

/-- The staging directory after a list of writes: the last write to a path
wins (a later `open(...,'w')`/`copy2` overwrites an earlier file). -/
def stagedAt (writes : List (List Char × FileData)) (p : List Char) :
    Option FileData :=
  (writes.reverse.find? (fun w => w.1 == p)).map (fun w => w.2)

/-- A two-file example source directory used to exercise the merge stage:
`A.log` holds the later-stamped line with metadata tag 1, every other name
holds the earlier-stamped line with metadata tag 2. -/
def exFs : List Char → FileData := fun n =>
  if n = "A.log".toList
    then ⟨["[00:00:02] x\n".toList], 1⟩
    else ⟨["[00:00:01] y\n".toList], 2⟩

/-! ## Top-level input selection -/

/-- `logfiles = [x for x in filenames if x.endswith('log')]`. -/
def selectLogfiles (filenames : List (List Char)) : List (List Char) :=
  filenames.filter (fun x => "log".toList.isSuffixOf x)

end ZL


namespace ZL

/-! ## Helper lemmas -/

theorem strLe_refl : ∀ s : List Char, strLe s s = true
  | [] => rfl
  | _ :: as => by simp [strLe, strLe_refl as]

theorem strLe_total : ∀ a b : List Char, strLe a b = true ∨ strLe b a = true
  | [], _ => Or.inl rfl
  | _ :: _, [] => Or.inr rfl
  | a :: as, b :: bs => by
    by_cases h : a.toNat = b.toNat
    · rw [strLe, if_pos h, strLe, if_pos h.symm]
      exact strLe_total as bs
    · have h' : ¬ b.toNat = a.toNat := fun hh => h hh.symm
      rcases Nat.lt_or_ge a.toNat b.toNat with hlt | hge
      · left
        rw [strLe, if_neg h, decide_eq_true_eq]
        exact hlt
      · right
        rw [strLe, if_neg h', decide_eq_true_eq]
        exact Nat.lt_of_le_of_ne hge h'

theorem strLe_trans :
    ∀ a b c : List Char, strLe a b = true → strLe b c = true → strLe a c = true
  | [], _, _, _, _ => rfl
  | _ :: _, [], _, hab, _ => by simp [strLe] at hab
  | _ :: _, _ :: _, [], _, hbc => by simp [strLe] at hbc
  | a :: as, b :: bs, c :: cs, hab, hbc => by
    by_cases h1 : a.toNat = b.toNat <;> by_cases h2 : b.toNat = c.toNat
    · rw [strLe, if_pos h1] at hab
      rw [strLe, if_pos h2] at hbc
      rw [strLe, if_pos (h1.trans h2)]
      exact strLe_trans as bs cs hab hbc
    · rw [strLe, if_neg h2, decide_eq_true_eq] at hbc
      have : ¬ a.toNat = c.toNat := by omega
      rw [strLe, if_neg this, decide_eq_true_eq]
      omega
    · rw [strLe, if_neg h1, decide_eq_true_eq] at hab
      have : ¬ a.toNat = c.toNat := by omega
      rw [strLe, if_neg this, decide_eq_true_eq]
      omega
    · rw [strLe, if_neg h1, decide_eq_true_eq] at hab
      rw [strLe, if_neg h2, decide_eq_true_eq] at hbc
      have : ¬ a.toNat = c.toNat := by omega
      rw [strLe, if_neg this, decide_eq_true_eq]
      omega

section StableSort

variable {α : Type _} {r : α → α → Prop} [DecidableRel r] {p : α → Bool}

theorem filter_orderedInsert_pos {x : α} (hx : p x = true)
    (hkey : ∀ y, p y = true → r x y) :
    ∀ l : List α, (l.orderedInsert r x).filter p = x :: l.filter p
  | [] => by simp [List.orderedInsert, hx]
  | y :: ys => by
    by_cases hr : r x y
    · simp [List.orderedInsert, hr, List.filter_cons, hx]
    · have hy : p y = false := by
        cases hpy : p y
        · rfl
        · exact absurd (hkey y hpy) hr
      simp [List.orderedInsert, hr, List.filter_cons, hy,
        filter_orderedInsert_pos hx hkey ys]

theorem filter_orderedInsert_neg {x : α} (hx : p x = false) :
    ∀ l : List α, (l.orderedInsert r x).filter p = l.filter p
  | [] => by simp [List.orderedInsert, hx]
  | y :: ys => by
    by_cases hr : r x y
    · simp [List.orderedInsert, hr, List.filter_cons, hx]
    · simp [List.orderedInsert, hr, List.filter_cons,
        filter_orderedInsert_neg hx ys]

/-- Stability of `insertionSort`, filter form: the elements satisfying `p`
(pairwise related by `r`, e.g. sharing one sort key) come out in exactly
the order they went in. -/
theorem filter_insertionSort (hp : ∀ x y, p x = true → p y = true → r x y) :
    ∀ l : List α, (l.insertionSort r).filter p = l.filter p
  | [] => rfl
  | a :: l => by
    cases ha : p a
    · rw [List.insertionSort, filter_orderedInsert_neg ha,
        filter_insertionSort hp l, List.filter_cons_of_neg (by simp [ha])]
    · rw [List.insertionSort, filter_orderedInsert_pos ha (fun y hy => hp a y ha hy),
        filter_insertionSort hp l, List.filter_cons_of_pos ha]

end StableSort

theorem collectLines_warns : ∀ lines : List (List Char),
    (collectLines lines).1 =
      (lines.filter (fun x => (lineMatch x).isNone)).map warnLineMsg
  | [] => rfl
  | line :: rest => by
    cases h : lineMatch line <;>
      simp [collectLines, h, List.filter_cons, collectLines_warns rest]

theorem collectLines_pairs : ∀ lines : List (List Char),
    (collectLines lines).2 = lines.filterMap parseLine
  | [] => rfl
  | line :: rest => by
    cases h : lineMatch line <;>
      simp [collectLines, h, parseLine, List.filterMap_cons, collectLines_pairs rest]

theorem pairs_map_snd : ∀ lines : List (List Char),
    (lines.filterMap parseLine).map (fun x => x.2) =
      lines.filter (fun x => (lineMatch x).isSome)
  | [] => rfl
  | line :: rest => by
    cases h : lineMatch line <;>
      simp [parseLine, List.filterMap_cons, h, List.filter_cons, pairs_map_snd rest]

theorem counterKeys_mem : ∀ (l : List (List Char)) (k : List Char),
    k ∈ counterKeys l ↔ k ∈ l
  | [], _ => by simp [counterKeys]
  | x :: xs, k => by
    by_cases hkx : k = x
    · simp [counterKeys, hkx]
    · simp [counterKeys, List.mem_filter, counterKeys_mem xs k, hkx, bne_iff_ne]

theorem counterKeys_nodup : ∀ l : List (List Char), (counterKeys l).Nodup
  | [] => List.nodup_nil
  | x :: xs => by
    refine List.Nodup.cons ?_ ((counterKeys_nodup xs).filter _)
    intro hx
    have := (List.mem_filter.1 hx).2
    simp at this

theorem find?_eq_some_of_unique {β : Type _} {pred : β → Bool} {x : β} :
    ∀ {l : List β}, x ∈ l → pred x = true → (∀ y ∈ l, pred y = true → y = x) →
      l.find? pred = some x := by
  intro l
  induction l with
  | nil => intro h; cases h
  | cons a l ih =>
    intro hx hpx huniq
    by_cases hpa : pred a = true
    · have hax : a = x := huniq a (List.mem_cons_self a l) hpa
      rw [List.find?_cons_of_pos _ hpa, hax]
    · have hax : x ∈ l := by
        rcases List.mem_cons.1 hx with rfl | h
        · exact absurd hpx hpa
        · exact h
      rw [List.find?_cons_of_neg _ (by simpa using hpa)]
      exact ih hax hpx (fun y hy => huniq y (List.mem_cons_of_mem _ hy))

/-! ## Claim theorems -/

/-- C10: the top-level input filter `[x for x in filenames if
x.endswith('log')]` selects exactly the directory entries whose name ends
in the three characters `log` — no dot required: `backlog` and `catalog`
are accepted as log-file inputs, and only names not ending in `log` are
excluded. -/
theorem C10_log_suffix_filter : ∀ (filenames : List (List Char)) (x : List Char),
    (x ∈ selectLogfiles filenames ↔ x ∈ filenames ∧ "log".toList <:+ x)
    ∧ selectLogfiles
        ["backlog".toList, "foo.txt".toList, "catalog".toList, "a.log".toList] =
      ["backlog".toList, "catalog".toList, "a.log".toList] := by
  intro filenames x
  refine ⟨?_, by decide⟩
  simp [selectLogfiles, List.mem_filter]

/-- C5: under the Global grammar, the staged lowercase filename
`alice_freenode_#chan_20160115.log` is parsed into user `alice`, network
`freenode`, window `#chan`, date `20160115`, and the file is moved to
`alice/freenode/#chan/2016-01-15.log` under the output root; and the
rewriter applies no case folding of its own — a mixed-case staged name
keeps its capitals in the captured fields and in the destination path. -/
theorem C5_global_mode_example :
    globalMatch "alice_freenode_#chan_20160115.log".toList =
      some ("alice".toList, "freenode".toList, "#chan".toList, "20160115".toList)
    ∧ convertToHierarchy osOk 'G' ["alice_freenode_#chan_20160115.log".toList] =
        .ok [.moved (OUTDIR ++ "alice_freenode_#chan_20160115.log".toList)
                    (OUTDIR ++ "alice/freenode/#chan/2016-01-15.log".toList)]
    ∧ globalMatch "Alice_FreeNode_#Chan_20160115.log".toList =
        some ("Alice".toList, "FreeNode".toList, "#Chan".toList, "20160115".toList)
    ∧ convertToHierarchy osOk 'G' ["Alice_FreeNode_#Chan_20160115.log".toList] =
        .ok [.moved (OUTDIR ++ "Alice_FreeNode_#Chan_20160115.log".toList)
                    (OUTDIR ++ "Alice/FreeNode/#Chan/2016-01-15.log".toList)] :=
  ⟨by decide, by rfl, by decide, by rfl⟩

/-- C9: `networkRe` and `userRe` carry no `$` anchor, so a staged name with
trailing characters after the `<date>.log` portion (here `.bak`) still
matches; window and date are captured from the prefix and the whole file is
moved to `<destination-dir>/<date>.log`, silently dropping the trailing
characters from the destination name. -/
theorem C9_unanchored_network_user_patterns :
    netMatch "#chan_20160115.log.bak".toList =
      some ("#chan".toList, "20160115".toList)
    ∧ userMatch "net_#chan_20160115.log.bak".toList =
        some ("net".toList, "#chan".toList, "20160115".toList)
    ∧ convertToHierarchy osOk 'N' ["#chan_20160115.log.bak".toList] =
        .ok [.moved (OUTDIR ++ "#chan_20160115.log.bak".toList)
                    (OUTDIR ++ "#chan/2016-01-15.log".toList)]
    ∧ convertToHierarchy osOk 'U' ["net_#chan_20160115.log.bak".toList] =
        .ok [.moved (OUTDIR ++ "net_#chan_20160115.log.bak".toList)
                    (OUTDIR ++ "net/#chan/2016-01-15.log".toList)] :=
  ⟨by decide, by decide, by rfl, by rfl⟩

/-- C1 counterexample: a staged filename whose date field is 7 digits is
NOT skipped with a warning — `globalRe`'s date group is `[0-9]+`, so
`a_net_#c_2016011.log` matches with date `2016011`, and the run moves the
file (to a malformed `2016-01-1.log` destination produced by positional
slicing), emitting no warning. -/
theorem C1_counterexample :
    globalMatch "a_net_#c_2016011.log".toList =
      some ("a".toList, "net".toList, "#c".toList, "2016011".toList)
    ∧ convertToHierarchy osOk 'G' ["a_net_#c_2016011.log".toList] =
        .ok [.moved (OUTDIR ++ "a_net_#c_2016011.log".toList)
                    (OUTDIR ++ "a/net/#c/2016-01-1.log".toList)] :=
  ⟨by decide, by rfl⟩

/-- C1 amended: a staged filename the Global grammar rejects — in
particular one whose date suffix is non-numeric — is left unmoved and
produces a warning; but a numeric date of the wrong length (e.g. 7 digits)
satisfies the `[0-9]+` date pattern, so the file is moved, its date
reformatted by fixed positional slicing (`2016011` → `2016-01-1`). -/
theorem C1_amended_date_handling : ∀ (os : OSModel) (f : List Char),
    modeMatch 'G' f = none →
    processLogfile os 'G' f = .ok (.warned (warnNoMatchMsg f))
    ∧ globalMatch "a_net_#c_2016x115.log".toList = none
    ∧ convertToHierarchy osOk 'G' ["a_net_#c_2016x115.log".toList] =
        .ok [.warned (warnNoMatchMsg "a_net_#c_2016x115.log".toList)]
    ∧ convertToHierarchy osOk 'G' ["a_net_#c_2016011.log".toList] =
        .ok [.moved (OUTDIR ++ "a_net_#c_2016011.log".toList)
                    (OUTDIR ++ "a/net/#c/2016-01-1.log".toList)] := by
  intro os f h
  refine ⟨?_, by decide, by rfl, by rfl⟩
  simp [processLogfile, h]

theorem C1_amended_witness :
    modeMatch 'G' "nodate.log".toList = none
    ∧ processLogfile osOk 'G' "nodate.log".toList =
        .ok (.warned (warnNoMatchMsg "nodate.log".toList)) :=
  ⟨by decide, (C1_amended_date_handling osOk "nodate.log".toList (by decide)).1⟩

/-- C8: running the Hierarchy Rewriter over a listing none of whose
entries matches the active grammar (e.g. the per-user / per-window
directories a previous run left at top level) moves nothing — the run
returns only warnings, one per leftover entry, in order. -/
theorem C8_second_run_moves_nothing : ∀ (os : OSModel) (logType : Char)
    (files : List (List Char)), (∀ f ∈ files, modeMatch logType f = none) →
    convertToHierarchy os logType files =
      .ok (files.map (fun f => .warned (warnNoMatchMsg f))) := by
  intro os logType files h
  induction files with
  | nil => rfl
  | cons f fs ih =>
    have hf : modeMatch logType f = none := h f (List.mem_cons_self f fs)
    have ih' := ih (fun g hg => h g (List.mem_cons_of_mem _ hg))
    simp [convertToHierarchy, processLogfile, hf, ih']

theorem C8_witness :
    (∀ f ∈ ["alice".toList, "#chan".toList], modeMatch 'G' f = none)
    ∧ convertToHierarchy osOk 'G' ["alice".toList, "#chan".toList] =
        .ok [.warned (warnNoMatchMsg "alice".toList),
             .warned (warnNoMatchMsg "#chan".toList)] :=
  ⟨by decide, C8_second_run_moves_nothing osOk 'G' _ (by decide)⟩

/-- C6: when `os.makedirs` fails for the destination directory of a
matched file, an `EEXIST` failure on an existing directory is treated as
success (the move proceeds and the run continues with the remaining
files); a failure for any other reason is re-raised and aborts the whole
run — the result is the error itself and no later file is processed. -/
theorem C6_makedirs_failure : ∀ (os : OSModel) (logType : Char) (f : List Char)
    (rest : List (List Char)) (g : Groups) (e : Nat),
    modeMatch logType f = some g →
    os.makedirs (destDir logType g) = .err e →
    ((e = EEXIST ∧ os.isdir (destDir logType g) = true →
      convertToHierarchy os logType (f :: rest) =
        (convertToHierarchy os logType rest).map
          (fun evs => .moved (OUTDIR ++ f)
            (destDir logType g ++ ['/'] ++ fmtDate g.date ++ ".log".toList) :: evs))
    ∧ (¬ (e = EEXIST ∧ os.isdir (destDir logType g) = true) →
      convertToHierarchy os logType (f :: rest) = .error e)) := by
  intro os logType f rest g e hm hmk
  constructor
  · rintro ⟨he, hd⟩
    subst he
    have hproc : processLogfile os logType f =
        .ok (.moved (OUTDIR ++ f)
          (destDir logType g ++ ['/'] ++ fmtDate g.date ++ ".log".toList)) := by
      simp [processLogfile, hm, hmk, hd]
    rw [convertToHierarchy, hproc]
    cases convertToHierarchy os logType rest <;> rfl
  · intro hne
    have hcond : (e == EEXIST && os.isdir (destDir logType g)) = false := by
      by_cases he : e = EEXIST
      · have hd : os.isdir (destDir logType g) = false :=
          Bool.eq_false_iff.2 (fun hd => hne ⟨he, hd⟩)
        simp [hd]
      · have h1 : (e == EEXIST) = false := beq_eq_false_iff_ne.2 he
        simp [h1]
    have hproc : processLogfile os logType f = .error e := by
      simp [processLogfile, hm, hmk, hcond]
    rw [convertToHierarchy, hproc]

theorem C6_witness :
    (convertToHierarchy ⟨fun _ => .err 17, fun _ => true⟩ 'G'
        ["a_n_w_20160101.log".toList, "b_n_w_20160101.log".toList] =
      (convertToHierarchy ⟨fun _ => .err 17, fun _ => true⟩ 'G'
          ["b_n_w_20160101.log".toList]).map
        (fun evs => .moved (OUTDIR ++ "a_n_w_20160101.log".toList)
          (destDir 'G' ⟨some "a".toList, some "n".toList, "w".toList, "20160101".toList⟩
            ++ ['/'] ++ fmtDate "20160101".toList ++ ".log".toList) :: evs))
    ∧ convertToHierarchy ⟨fun _ => .err 13, fun _ => true⟩ 'G'
        ["a_n_w_20160101.log".toList, "b_n_w_20160101.log".toList] = .error 13 :=
  ⟨(C6_makedirs_failure ⟨fun _ => .err 17, fun _ => true⟩ 'G' _ _
      ⟨some "a".toList, some "n".toList, "w".toList, "20160101".toList⟩ 17
      (by decide) (by decide)).1 (by decide),
   (C6_makedirs_failure ⟨fun _ => .err 13, fun _ => true⟩ 'G' _ _
      ⟨some "a".toList, some "n".toList, "w".toList, "20160101".toList⟩ 13
      (by decide) (by decide)).2 (by decide)⟩

theorem warnLineMsg_injective : Function.Injective warnLineMsg := by
  intro a b h
  unfold warnLineMsg at h
  exact List.append_cancel_left (List.append_cancel_right h)

theorem perm_count_eq {l1 l2 : List (List Char)} (h : l1.Perm l2)
    (a : List Char) : l1.count a = l2.count a :=
  h.countP_eq _

theorem count_map_inj {f : List Char → List Char} (hf : Function.Injective f)
    (x : List Char) :
    ∀ l : List (List Char), (l.map f).count (f x) = l.count x
  | [] => rfl
  | a :: l => by
    rw [List.map_cons, List.count_cons, List.count_cons, count_map_inj hf x l]
    by_cases h : a = x
    · simp [h]
    · have h2 : ¬ f a = f x := fun hh => h (hf hh)
      simp [h, h2]

/-- C7: during a merge, a line that does not start with `[` followed by a
matching `]` never reaches the merged output, and exactly one warning
embedding that line is printed per occurrence (the warnings are exactly
the rejected lines, in input order); every line matching the
bracketed-timestamp shape is retained with its multiplicity. -/
theorem C7_unparseable_lines : ∀ (lines : List (List Char)) (l : List Char),
    ((sortLines lines).1 =
        (lines.filter (fun x => (lineMatch x).isNone)).map warnLineMsg)
    ∧ (lineMatch l = none →
        l ∉ (sortLines lines).2
        ∧ (sortLines lines).1.count (warnLineMsg l) = lines.count l)
    ∧ ((lineMatch l).isSome = true →
        (sortLines lines).2.count l = lines.count l) := by
  intro lines l
  refine ⟨?_, fun hnone => ⟨?_, ?_⟩, fun hsome => ?_⟩
  · simp only [sortLines]
    exact collectLines_warns lines
  · intro hmem
    simp only [sortLines, List.mem_map] at hmem
    obtain ⟨x, hx, hxl⟩ := hmem
    rw [List.mem_insertionSort, collectLines_pairs, List.mem_filterMap] at hx
    obtain ⟨a, _, ha⟩ := hx
    simp only [parseLine, Option.map_eq_some'] at ha
    obtain ⟨g, hg, rfl⟩ := ha
    have hal : a = l := hxl
    rw [hal, hnone] at hg
    cases hg
  · simp only [sortLines, collectLines_warns]
    rw [count_map_inj warnLineMsg_injective,
      List.count_filter (by simp [hnone])]
  · have hperm : (sortLines lines).2.Perm
        (((collectLines lines).2).map (fun x => x.2)) := by
      simp only [sortLines]
      exact (List.perm_insertionSort keyLe _).map _
    rw [perm_count_eq hperm, collectLines_pairs, pairs_map_snd,
      List.count_filter (by simp [hsome])]

theorem C7_witness :
    lineMatch "junk\n".toList = none
    ∧ ("junk\n".toList ∉
        (sortLines ["[00:01:00] a\n".toList, "junk\n".toList,
          "[00:00:30] b\n".toList, "junk\n".toList]).2
      ∧ (sortLines ["[00:01:00] a\n".toList, "junk\n".toList,
          "[00:00:30] b\n".toList, "junk\n".toList]).1.count
            (warnLineMsg "junk\n".toList) =
          ["[00:01:00] a\n".toList, "junk\n".toList,
            "[00:00:30] b\n".toList, "junk\n".toList].count "junk\n".toList) :=
  ⟨by decide,
   (C7_unparseable_lines ["[00:01:00] a\n".toList, "junk\n".toList,
      "[00:00:30] b\n".toList, "junk\n".toList] "junk\n".toList).2.1 (by decide)⟩

theorem collect_pairs_key {L : List (List Char)} {x : List Char × List Char}
    (hx : x ∈ (collectLines L).2) : x.1 = tsOfD x.2 := by
  rw [collectLines_pairs, List.mem_filterMap] at hx
  obtain ⟨a, _, ha⟩ := hx
  simp only [parseLine, Option.map_eq_some'] at ha
  obtain ⟨g, hg, rfl⟩ := ha
  simp [tsOfD, hg]

/-- C2: merging a duplicate pair concatenates the parseable lines of the
first file with those of the second and stable-sorts them by the
colon-stripped bracketed-timestamp key: the output is a permutation of the
surviving lines, its keys are in ascending lexicographic order, lines with
equal keys keep their original relative order (first file's lines before
the second file's), and on the spec's example the `[00:00:30]` line comes
out before the `[00:01:00]` one whichever file each came from. -/
theorem C2_stable_timestamp_sort : ∀ (l1 l2 : List (List Char)) (k : List Char),
    ((sortLines (l1 ++ l2)).2.Perm
        (((l1 ++ l2).filterMap parseLine).map (fun x => x.2)))
    ∧ (sortLines (l1 ++ l2)).2.Pairwise
        (fun a b => strLe (tsOfD a) (tsOfD b) = true)
    ∧ ((sortLines (l1 ++ l2)).2.filter (fun x => tsOfD x == k) =
        (((l1 ++ l2).filterMap parseLine).map (fun x => x.2)).filter
          (fun x => tsOfD x == k))
    ∧ (sortLines (["[00:01:00] a\n".toList] ++ ["[00:00:30] b\n".toList])).2 =
        ["[00:00:30] b\n".toList, "[00:01:00] a\n".toList] := by
  intro l1 l2 k
  haveI : IsTotal (List Char × List Char) keyLe :=
    ⟨fun a b => strLe_total a.1 b.1⟩
  haveI : IsTrans (List Char × List Char) keyLe :=
    ⟨fun a b c => strLe_trans a.1 b.1 c.1⟩
  have hpairs : ∀ x ∈ (collectLines (l1 ++ l2)).2,
      ((tsOfD x.2 == k) : Bool) = (x.1 == k) := by
    intro x hx
    rw [collect_pairs_key hx]
  have hsortmem : ∀ x ∈ List.insertionSort keyLe (collectLines (l1 ++ l2)).2,
      ((tsOfD x.2 == k) : Bool) = (x.1 == k) := by
    intro x hx
    exact hpairs x ((List.mem_insertionSort keyLe).1 hx)
  refine ⟨?_, ?_, ?_, by decide⟩
  · simp only [sortLines, ← collectLines_pairs]
    exact (List.perm_insertionSort keyLe _).map _
  · simp only [sortLines]
    rw [List.pairwise_map]
    have hs : (List.insertionSort keyLe (collectLines (l1 ++ l2)).2).Pairwise keyLe :=
      List.sorted_insertionSort keyLe _
    refine hs.imp_of_mem ?_
    intro a b ha hb hr
    rw [← collect_pairs_key ((List.mem_insertionSort keyLe).1 ha),
      ← collect_pairs_key ((List.mem_insertionSort keyLe).1 hb)]
    exact hr
  · simp only [sortLines, ← collectLines_pairs]
    rw [List.filter_map, List.filter_map]
    have hcomp : ∀ (l : List (List Char × List Char)),
        (∀ x ∈ l, ((tsOfD x.2 == k) : Bool) = (x.1 == k)) →
        l.filter ((fun x => tsOfD x == k) ∘ (fun x => x.2)) =
          l.filter (fun x => x.1 == k) := by
      intro l hl
      exact List.filter_congr (fun x hx => hl x hx)
    rw [hcomp _ hsortmem, hcomp _ hpairs]
    congr 1
    refine filter_insertionSort ?_ _
    intro x y hx hy
    have hxk : x.1 = k := by simpa using hx
    have hyk : y.1 = k := by simpa using hy
    show strLe x.1 y.1 = true
    rw [hxk, hyk]
    exact strLe_refl k

theorem findMixedCaseDupes_fst (names : List (List Char)) :
    (findMixedCaseDupes names).1 =
      ((counterKeys (names.map lowerStr)).filter
        (fun k => 2 < (names.map lowerStr).count k)).map warnMoreMsg := rfl

theorem findMixedCaseDupes_snd (names : List (List Char)) :
    (findMixedCaseDupes names).2 =
      ((counterKeys (names.map lowerStr)).filter
        (fun k => (names.map lowerStr).count k == 2)).map
        (fun k => names.filter (fun v => lowerStr v == k)) := rfl

theorem filter_key_length (names : List (List Char)) (k : List Char) :
    (names.filter (fun v => lowerStr v == k)).length =
      (names.map lowerStr).count k := by
  rw [List.count_eq_countP, List.countP_map, List.countP_eq_length_filter]
  rfl

theorem mem_filter_key {names : List (List Char)} {k x : List Char}
    (hx : x ∈ names.filter (fun v => lowerStr v == k)) : lowerStr x = k := by
  simpa using (List.mem_filter.1 hx).2

theorem mem_dupes_iff (names : List (List Char)) (g : List (List Char)) :
    g ∈ (findMixedCaseDupes names).2 ↔
      ∃ k, (names.map lowerStr).count k = 2 ∧
        g = names.filter (fun v => lowerStr v == k) := by
  rw [findMixedCaseDupes_snd]
  constructor
  · intro hg
    obtain ⟨k, hk, rfl⟩ := List.mem_map.1 hg
    have hc : (names.map lowerStr).count k = 2 := by
      simpa using (List.mem_filter.1 hk).2
    exact ⟨k, hc, rfl⟩
  · rintro ⟨k, hc, rfl⟩
    refine List.mem_map.2 ⟨k, List.mem_filter.2 ⟨?_, by simpa using hc⟩, rfl⟩
    rw [counterKeys_mem]
    exact List.count_pos_iff.1 (by omega)

/-- C3: the duplicate detector `findMixedCaseDupes` emits one group per
lowercase-normalized form of multiplicity exactly 2, and none for
multiplicity 1 or ≥ 3 (multiplicity > 2 only produces a warning); each
group is `names.filter (lower · = k)`, i.e. the original-case names for
the form, in their first-seen input order, and it has exactly two
members. -/
theorem C3_duplicate_pairs : ∀ (names : List (List Char))
    (g : List (List Char)) (k : List Char),
    (g ∈ (findMixedCaseDupes names).2 ↔
      ∃ kk, (names.map lowerStr).count kk = 2 ∧
        g = names.filter (fun v => lowerStr v == kk))
    ∧ ((names.map lowerStr).count k = 2 →
        names.filter (fun v => lowerStr v == k) ∈ (findMixedCaseDupes names).2
        ∧ (names.filter (fun v => lowerStr v == k)).length = 2)
    ∧ ((names.map lowerStr).count k ≠ 2 →
        names.filter (fun v => lowerStr v == k) ∉ (findMixedCaseDupes names).2)
    ∧ (2 < (names.map lowerStr).count k →
        warnMoreMsg k ∈ (findMixedCaseDupes names).1) := by
  intro names g k
  refine ⟨mem_dupes_iff names g, fun h2 => ⟨?_, ?_⟩, fun hne hmem => ?_,
    fun hgt => ?_⟩
  · exact (mem_dupes_iff names _).2 ⟨k, h2, rfl⟩
  · rw [filter_key_length, h2]
  · obtain ⟨kk, hc, he⟩ := (mem_dupes_iff names _).1 hmem
    have hlen := filter_key_length names k
    rw [he, filter_key_length names kk, hc] at hlen
    exact hne hlen.symm
  · rw [findMixedCaseDupes_fst]
    refine List.mem_map.2 ⟨k, List.mem_filter.2 ⟨?_, by simpa using hgt⟩, rfl⟩
    rw [counterKeys_mem]
    exact List.count_pos_iff.1 (by omega)

theorem C3_witness :
    (((["A.log".toList, "a.LOG".toList, "B.log".toList, "b.log".toList,
        "B.LOG".toList].map lowerStr).count "a.log".toList = 2)
      ∧ (["A.log".toList, "a.LOG".toList, "B.log".toList, "b.log".toList,
            "B.LOG".toList].filter (fun v => lowerStr v == "a.log".toList) ∈
          (findMixedCaseDupes ["A.log".toList, "a.LOG".toList, "B.log".toList,
            "b.log".toList, "B.LOG".toList]).2
        ∧ (["A.log".toList, "a.LOG".toList, "B.log".toList, "b.log".toList,
            "B.LOG".toList].filter
              (fun v => lowerStr v == "a.log".toList)).length = 2))
    ∧ ((2 < ((["A.log".toList, "a.LOG".toList, "B.log".toList, "b.log".toList,
          "B.LOG".toList].map lowerStr).count "b.log".toList)
      ∧ warnMoreMsg "b.log".toList ∈
          (findMixedCaseDupes ["A.log".toList, "a.LOG".toList, "B.log".toList,
            "b.log".toList, "B.LOG".toList]).1)) :=
  ⟨⟨by decide,
    (C3_duplicate_pairs ["A.log".toList, "a.LOG".toList, "B.log".toList,
      "b.log".toList, "B.LOG".toList] [] "a.log".toList).2.1 (by decide)⟩,
   ⟨by decide,
    (C3_duplicate_pairs ["A.log".toList, "a.LOG".toList, "B.log".toList,
      "b.log".toList, "B.LOG".toList] [] "b.log".toList).2.2.2 (by decide)⟩⟩

theorem mergeAndCopyLogs_eq (fsrc : List Char → FileData)
    (logfiles : List (List Char)) (dupes : List (List (List Char))) :
    mergeAndCopyLogs fsrc logfiles dupes =
      dupes.map (fun d => (OUTDIR ++ lowerStr (d.getD 0 []),
        { lines := (sortLines ((fsrc (d.getD 0 [])).lines ++
            (fsrc (d.getD 1 [])).lines)).2,
          stat := (fsrc (d.getD 1 [])).stat }))
      ++ (logfiles.filter (fun n => !((dupes.flatten).contains n))).map
          (fun n => (OUTDIR ++ lowerStr n, fsrc n)) := rfl

theorem dupes_mem_shape {logfiles : List (List Char)} {d : List (List Char)}
    (hd : d ∈ (findMixedCaseDupes logfiles).2) :
    ∃ f1 f2, d = [f1, f2] ∧
      d = logfiles.filter (fun v => lowerStr v == lowerStr f1) := by
  obtain ⟨k, hc, hdf⟩ := (mem_dupes_iff logfiles d).1 hd
  have hlen : d.length = 2 := by rw [hdf, filter_key_length, hc]
  obtain ⟨f1, f2, he⟩ := List.length_eq_two.1 hlen
  have hf1d : f1 ∈ d := by rw [he]; exact List.mem_cons_self _ _
  have hf1 : lowerStr f1 = k := mem_filter_key (hdf ▸ hf1d)
  exact ⟨f1, f2, he, by rw [hf1, ← hdf]⟩

/-- C4: for every duplicate pair `(f1, f2)` the merger processes, the file
found at `OUTDIR + f1.lower()` in the staging directory after the whole
merge-and-copy stage carries the metadata of `f2` — the second-listed
member (`shutil.copystat(dupe[1], …)`) — never that of `f1`, and its
contents are the timestamp-sorted merge of `f1`'s lines then `f2`'s. -/
theorem C4_merged_metadata_from_second : ∀ (fsrc : List Char → FileData)
    (logfiles : List (List Char)) (d : List (List Char)),
    d ∈ (findMixedCaseDupes logfiles).2 →
    ∃ f1 f2, d = [f1, f2] ∧
      stagedAt (mergeAndCopyLogs fsrc logfiles (findMixedCaseDupes logfiles).2)
          (OUTDIR ++ lowerStr f1) =
        some { lines := (sortLines ((fsrc f1).lines ++ (fsrc f2).lines)).2,
               stat := (fsrc f2).stat } := by
  intro fsrc logfiles d hd
  obtain ⟨f1, f2, hde, hdf⟩ := dupes_mem_shape hd
  refine ⟨f1, f2, hde, ?_⟩
  have hgetD0 : d.getD 0 [] = f1 := by rw [hde]; rfl
  have hgetD1 : d.getD 1 [] = f2 := by rw [hde]; rfl
  simp only [stagedAt, mergeAndCopyLogs_eq, List.reverse_append,
    List.find?_append]
  have hcop : (((logfiles.filter
      (fun n => !((((findMixedCaseDupes logfiles).2).flatten).contains n))).map
        (fun n => (OUTDIR ++ lowerStr n, fsrc n))).reverse.find?
          (fun w => w.1 == OUTDIR ++ lowerStr f1)) = none := by
    rw [List.find?_eq_none]
    intro w hw
    rw [List.mem_reverse, List.mem_map] at hw
    obtain ⟨n, hn, rfl⟩ := hw
    obtain ⟨hnl, hnc⟩ := List.mem_filter.1 hn
    simp only [beq_iff_eq]
    intro heq
    have hkey : lowerStr n = lowerStr f1 := List.append_cancel_left heq
    have hnin : n ∈ d := by
      rw [hdf]
      exact List.mem_filter.2 ⟨hnl, by simp [hkey]⟩
    have hmemfl : n ∈ ((findMixedCaseDupes logfiles).2).flatten :=
      List.mem_flatten.2 ⟨d, hd, hnin⟩
    simp [List.contains, hmemfl] at hnc
  rw [hcop, Option.none_or]
  have hfind : ((((findMixedCaseDupes logfiles).2).map
      (fun d => (OUTDIR ++ lowerStr (d.getD 0 []),
        { lines := (sortLines ((fsrc (d.getD 0 [])).lines ++
            (fsrc (d.getD 1 [])).lines)).2,
          stat := (fsrc (d.getD 1 [])).stat }))).reverse.find?
        (fun w => w.1 == OUTDIR ++ lowerStr f1)) =
      some ((OUTDIR ++ lowerStr (d.getD 0 []),
        { lines := (sortLines ((fsrc (d.getD 0 [])).lines ++
            (fsrc (d.getD 1 [])).lines)).2,
          stat := (fsrc (d.getD 1 [])).stat }) : List Char × FileData) := by
    apply find?_eq_some_of_unique
    · rw [List.mem_reverse]
      exact List.mem_map_of_mem _ hd
    · simp [hde]
    · intro y hy hpy
      rw [List.mem_reverse, List.mem_map] at hy
      obtain ⟨d2, hd2, rfl⟩ := hy
      obtain ⟨g1, g2, hd2e, hd2f⟩ := dupes_mem_shape hd2
      have hg0 : d2.getD 0 [] = g1 := by rw [hd2e]; rfl
      simp only [beq_iff_eq] at hpy
      rw [hg0] at hpy
      have hkey2 : lowerStr g1 = lowerStr f1 := List.append_cancel_left hpy
      have hdd : d2 = d := by rw [hd2f, hkey2, ← hdf]
      rw [hdd]
  rw [hfind]
  simp only [Option.map_some']
  rw [hgetD0, hgetD1]

theorem C4_witness :
    ["A.log".toList, "a.log".toList] ∈
      (findMixedCaseDupes ["A.log".toList, "a.log".toList, "b.log".toList]).2
    ∧ ∃ f1 f2, ["A.log".toList, "a.log".toList] = [f1, f2] ∧
        stagedAt (mergeAndCopyLogs exFs
            ["A.log".toList, "a.log".toList, "b.log".toList]
            (findMixedCaseDupes
              ["A.log".toList, "a.log".toList, "b.log".toList]).2)
          (OUTDIR ++ lowerStr f1) =
        some { lines := (sortLines ((exFs f1).lines ++ (exFs f2).lines)).2,
               stat := (exFs f2).stat } :=
  ⟨by decide,
   C4_merged_metadata_from_second exFs
     ["A.log".toList, "a.log".toList, "b.log".toList]
     ["A.log".toList, "a.log".toList] (by decide)⟩

end ZL
